import Mathlib

/-!
Verification of the smart-video-segmentation fusion core.

Timestamps, durations and confidences are modelled as rationals; lists are
Lean lists. Each Python method of `SmartSegmenter` and the pure clustering
glue of `SpeakerDiarizer` is translated into an executable definition below;
loops that append to lists become structural recursions producing the
elements in the same order, and the mutable `last_split_time` state variable
becomes an explicit argument of the recursion.
-/

/-- Reasons for a split point (enum `SplitReason` in models.py; only one
variant exists in the source). -/
inductive SplitReason where
  | SHOT_CHANGE_AND_SPEAKER_CHANGE
  deriving DecidableEq, Repr

/-- `SpeechSegment` dataclass: one transcribed speech span. -/
structure SpeechSegment where
  start : ℚ
  «end» : ℚ
  text : String
  deriving DecidableEq, Repr

instance : Inhabited SpeechSegment := ⟨⟨0, 0, ""⟩⟩

/-- `SplitPoint` dataclass: a selected cut with reason and confidence. -/
structure SplitPoint where
  timestamp : ℚ
  reason : SplitReason
  confidence : ℚ
  deriving DecidableEq, Repr

instance : Inhabited SplitPoint :=
  ⟨⟨0, SplitReason.SHOT_CHANGE_AND_SPEAKER_CHANGE, 0⟩⟩

/-- `SegmentInfo` dataclass: one contiguous output segment. -/
structure SegmentInfo where
  index : ℕ
  start : ℚ
  «end» : ℚ
  duration : ℚ
  deriving DecidableEq, Repr

instance : Inhabited SegmentInfo := ⟨⟨0, 0, 0, 0⟩⟩

/-- `AnalysisResult` dataclass returned by `SmartSegmenter.analyze`. -/
structure AnalysisResult where
  shot_changes : List ℚ
  speech_segments : List SpeechSegment
  final_splits : List SplitPoint
  skipped_shots : List (ℚ × String)
  deriving DecidableEq, Repr

/-- Constant `SHOT_SPEAKER_TIME_TOLERANCE = 1.0` from smart_segmenter.py. -/
def SHOT_SPEAKER_TIME_TOLERANCE : ℚ := 1

/-- Constant `SHOT_SPEAKER_CONFIDENCE = 0.9` from smart_segmenter.py. -/
def SHOT_SPEAKER_CONFIDENCE : ℚ := 9 / 10

/-- `SmartSegmenter._find_speaker_changes`: the loop
`for i in range(1, len(speaker_labels))` appending
`speech_segments[i - 1].end` whenever `speaker_labels[i] != speaker_labels[i - 1]`,
guarded by `if not speaker_labels or len(speaker_labels) < 2: return []`.
The loop index is shifted by one so it runs over `range (len - 1)`. -/
def find_speaker_changes (speech_segments : List SpeechSegment)
    (speaker_labels : List ℤ) : List ℚ :=
  if speaker_labels.length < 2 then []
  else
    (List.range (speaker_labels.length - 1)).filterMap fun i =>
      if speaker_labels.getD (i + 1) 0 ≠ speaker_labels.getD i 0 then
        some ((speech_segments.getD i default).«end»)
      else none

/-- `SmartSegmenter._has_speaker_change_near`: true when some speaker-change
time is strictly within `SHOT_SPEAKER_TIME_TOLERANCE` of the shot time. -/
def has_speaker_change_near (shot_time : ℚ) (speaker_change_times : List ℚ) : Bool :=
  speaker_change_times.any fun change_time =>
    decide (|change_time - shot_time| < SHOT_SPEAKER_TIME_TOLERANCE)

/-- The loop body of `SmartSegmenter._process_shot_changes`, as a structural
recursion over the remaining shot times; the mutable `last_split_time` is the
second argument, and `D` stands for `self._min_segment_duration`. -/
def process_shot_changes_go (D : ℚ) (speaker_change_times : List ℚ) :
    List ℚ → ℚ → List SplitPoint × List (ℚ × String)
  | [], _ => ([], [])
  | shot_time :: rest, last_split_time =>
    if shot_time - last_split_time < D then
      let r := process_shot_changes_go D speaker_change_times rest last_split_time
      (r.1, (shot_time, "片段太短") :: r.2)
    else if has_speaker_change_near shot_time speaker_change_times then
      let r := process_shot_changes_go D speaker_change_times rest shot_time
      (⟨shot_time, SplitReason.SHOT_CHANGE_AND_SPEAKER_CHANGE,
          SHOT_SPEAKER_CONFIDENCE⟩ :: r.1, r.2)
    else
      let r := process_shot_changes_go D speaker_change_times rest last_split_time
      (r.1, (shot_time, "语音连续，不切分") :: r.2)

/-- `SmartSegmenter._process_shot_changes`: run the loop from
`last_split_time = 0.0` over the shot-change list. -/
def process_shot_changes (D : ℚ) (shot_changes : List ℚ)
    (speaker_change_times : List ℚ) : List SplitPoint × List (ℚ × String) :=
  process_shot_changes_go D speaker_change_times shot_changes 0

/-- The body of the loop in `SmartSegmenter._filter_close_splits`, acting on
the retained list kept in reverse order, so that `filtered[-1]` is the head:
append when the gap from the last retained split is at least `D`, otherwise
replace the last retained split exactly when the newcomer has strictly higher
confidence. -/
def filter_close_splits_step (D : ℚ) (filtered : List SplitPoint)
    (split : SplitPoint) : List SplitPoint :=
  match filtered with
  | [] => [split]
  | last :: prev =>
    if split.timestamp - last.timestamp ≥ D then split :: last :: prev
    else if split.confidence > last.confidence then split :: prev
    else last :: prev

/-- `SmartSegmenter._filter_close_splits`: lists of length at most one are
returned unchanged; otherwise fold the loop body over the tail starting from
`[splits[0]]` and restore order at the end. -/
def filter_close_splits (D : ℚ) (splits : List SplitPoint) : List SplitPoint :=
  if splits.length ≤ 1 then splits
  else
    match splits with
    | [] => splits
    | s :: rest => (rest.foldl (filter_close_splits_step D) [s]).reverse

/-- Comparison used for `final_splits.sort(key=lambda x: x.timestamp)`. -/
def splitPointLE (a b : SplitPoint) : Bool :=
  decide (a.timestamp ≤ b.timestamp)

/-- `SmartSegmenter.analyze`: compute speaker-change times, run the shot loop,
sort the emitted splits by timestamp, filter close splits, and assemble the
`AnalysisResult`. -/
def analyze (D : ℚ) (shot_changes : List ℚ)
    (speech_segments : List SpeechSegment) (video_duration : ℚ)
    (speaker_labels : List ℤ) : AnalysisResult :=
  let speaker_change_times := find_speaker_changes speech_segments speaker_labels
  let r := process_shot_changes D shot_changes speaker_change_times
  let final_splits := filter_close_splits D (r.1.mergeSort splitPointLE)
  { shot_changes := shot_changes
    speech_segments := speech_segments
    final_splits := final_splits
    skipped_shots := r.2 }

/-- `SmartSegmenter.get_segments_info`: boundary sequence
`[0.0] + [s.timestamp for s in splits] + [video_duration]` and one
`SegmentInfo` per adjacent boundary pair. -/
def get_segments_info (splits : List SplitPoint) (video_duration : ℚ) :
    List SegmentInfo :=
  let timestamps := 0 :: splits.map SplitPoint.timestamp ++ [video_duration]
  (List.range (timestamps.length - 1)).map fun i =>
    ⟨i, timestamps.getD i 0, timestamps.getD (i + 1) 0,
      timestamps.getD (i + 1) 0 - timestamps.getD i 0⟩

/-! ## Speaker diarizer (speaker_diarizer.py)

Embeddings are modelled as lists of rationals; the all-zero sentinel of the
source (`np.zeros(EMBEDDING_DIM)`) is any list with no nonzero entry, tested
exactly as the source does with `np.any(emb != 0)`. The external clustering
and scoring libraries (`AgglomerativeClustering.fit_predict`,
`silhouette_score`) are parameters of the definitions: a clustering function
producing integer labels and a scoring function, both fallible
(`Except String`) to model raised exceptions. -/

/-- Constant `MAX_SPEAKERS = 10` from speaker_diarizer.py. -/
def MAX_SPEAKERS : ℕ := 10

/-- `valid_indices` from `SpeakerDiarizer._cluster_speakers`:
`[i for i, emb in enumerate(embeddings) if np.any(emb != 0)]`. -/
def valid_indices (embeddings : List (List ℚ)) : List ℕ :=
  (List.range embeddings.length).filter fun i =>
    (embeddings.getD i []).any fun x => decide (x ≠ 0)

/-- `valid_embeddings` from `SpeakerDiarizer._cluster_speakers`:
`[embeddings[i] for i in valid_indices]`. -/
def valid_embeddings (embeddings : List (List ℚ)) : List (List ℚ) :=
  (valid_indices embeddings).map fun i => embeddings.getD i []

/-- The scatter loop of `_cluster_speakers`:
`labels = [-1] * len(embeddings)` followed by
`for i, idx in enumerate(valid_indices): labels[idx] = cluster_labels[i]`. -/
def scatter_labels (n : ℕ) (idxs : List ℕ) (vals : List ℤ) : List ℤ :=
  (idxs.zip vals).foldl (fun arr p => arr.set p.1 p.2) (List.replicate n (-1))

/-- The backfill loop of `_cluster_speakers`:
`for i in range(len(labels)): if labels[i] == -1: labels[i] = labels[i-1] if i > 0 else 0`.
Because the list is updated in place, the value read at `i - 1` is the
already-filled one; `prev` carries it (initially `0`, covering `i = 0`). -/
def fill_invalid_labels (prev : ℤ) : List ℤ → List ℤ
  | [] => []
  | l :: ls =>
    let v := if l = -1 then prev else l
    v :: fill_invalid_labels v ls

/-- `SpeakerDiarizer._cluster_speakers`, parameterized by the result
`find_optimal` of the external cluster search on the valid subset. -/
def cluster_speakers (find_optimal : List (List ℚ) → List ℤ)
    (embeddings : List (List ℚ)) : List ℤ :=
  if (valid_indices embeddings).length < 2 then
    List.replicate embeddings.length 0
  else
    let cluster_labels := find_optimal (valid_embeddings embeddings)
    let labels :=
      scatter_labels embeddings.length (valid_indices embeddings) cluster_labels
    fill_invalid_labels 0 labels

/-- Candidate cluster counts tried by `_find_optimal_clusters`:
`range(2, max_k + 1)` with `max_k = min(n_samples - 1, MAX_SPEAKERS)`. -/
def candidate_ks (n_samples : ℕ) : List ℕ :=
  List.range' 2 (min (n_samples - 1) MAX_SPEAKERS + 1 - 2)

/-- One iteration of the search loop in `_find_optimal_clusters`: run the
clustering and the scoring for `k`; any raised exception leaves the
accumulator `(best_score, best_labels, best_n)` unchanged, and a score is
kept only when strictly greater than the best so far. -/
def optimal_clusters_step (cluster : ℕ → List (List ℚ) → Except String (List ℤ))
    (score : List (List ℚ) → List ℤ → Except String ℚ)
    (embeddings : List (List ℚ)) (acc : ℚ × Option (List ℤ) × ℕ) (k : ℕ) :
    ℚ × Option (List ℤ) × ℕ :=
  match cluster k embeddings with
  | Except.error _ => acc
  | Except.ok labels =>
    match score embeddings labels with
    | Except.error _ => acc
    | Except.ok s => if s > acc.1 then (s, some labels, k) else acc

/-- `SpeakerDiarizer._find_optimal_clusters`, parameterized by the external
clustering and scoring calls. The accumulator starts at
`best_score = -1, best_labels = None, best_n = 2`; when no candidate was ever
kept, the fallback `AgglomerativeClustering(n_clusters=2)` call runs outside
any `try`, so its failure propagates. -/
def find_optimal_clusters (cluster : ℕ → List (List ℚ) → Except String (List ℤ))
    (score : List (List ℚ) → List ℤ → Except String ℚ)
    (embeddings : List (List ℚ)) : Except String (List ℤ × ℕ) :=
  let n_samples := embeddings.length
  if n_samples < 2 then Except.ok (List.replicate n_samples 0, 1)
  else
    let r := (candidate_ks n_samples).foldl
      (optimal_clusters_step cluster score embeddings) (-1, none, 2)
    match r.2.1 with
    | some best_labels => Except.ok (best_labels, r.2.2)
    | none =>
      match cluster 2 embeddings with
      | Except.ok labels => Except.ok (labels, 2)
      | Except.error e => Except.error e

/-! ## Spec-side definitions

These two definitions follow the wording of the specification, for the
refinement claims comparing them with the source translations above. -/

/-- Spec wording for the ChangePointProjector: one change-time entry per
adjacent label pair that differs, timestamped at the end of the earlier
span. -/
def change_times_spec (speech_segments : List SpeechSegment)
    (speaker_labels : List ℤ) : List ℚ :=
  ((speech_segments.map SpeechSegment.«end»).zip
      (speaker_labels.zip (speaker_labels.drop 1))).filterMap fun p =>
    if p.2.1 ≠ p.2.2 then some p.1 else none

/-- Spec wording for the label backfill of the SpeakerClusterer: positions
holding a valid embedding consume the cluster labels in order; a position
holding an invalid embedding repeats the label of the nearest preceding valid
position, or `0` when no valid position precedes it. -/
def cluster_labels_spec (prev : ℤ) :
    List (List ℚ) → List ℤ → List ℤ
  | [], _ => []
  | e :: es, ls =>
    if e.any fun x => decide (x ≠ 0) then
      ls.headD 0 :: cluster_labels_spec (ls.headD 0) es ls.tail
    else
      prev :: cluster_labels_spec prev es ls

/-- Intermediate form of the scatter loop of `_cluster_speakers`: valid
positions take the cluster labels in order, invalid positions hold the `-1`
placeholder. -/
def masked_labels : List (List ℚ) → List ℤ → List ℤ
  | [], _ => []
  | e :: es, ls =>
    if e.any fun x => decide (x ≠ 0) then
      ls.headD (-1) :: masked_labels es ls.tail
    else
      (-1) :: masked_labels es ls

/-! ## Helper lemmas -/

theorem has_speaker_change_near_iff (t : ℚ) (cs : List ℚ) :
    has_speaker_change_near t cs = true ↔ ∃ c ∈ cs, |c - t| < 1 := by
  simp [has_speaker_change_near, SHOT_SPEAKER_TIME_TOLERANCE]

theorem process_go_nil_changes (D : ℚ) :
    ∀ (shots : List ℚ) (last : ℚ),
      (process_shot_changes_go D [] shots last).1 = [] := by
  intro shots
  induction shots with
  | nil => intro last; simp [process_shot_changes_go]
  | cons t rest ih =>
    intro last
    simp only [process_shot_changes_go, has_speaker_change_near, List.any_nil]
    split
    · exact ih last
    · simpa using ih last

/-! ## Claims -/

/-- Claim C3: the forward pass of the decision engine, started at
`last_split_time = 0`, treats each shot boundary `t` as specified: when
`t - last_split_time < D` it records `t` as skipped with the
segment-too-short reason and keeps `last_split_time`; otherwise, when some
speaker-change time `c` has `|c - t| < 1`, it emits a split at `t` with
reason SHOT_CHANGE_AND_SPEAKER_CHANGE and confidence exactly `9/10` and
continues with `last_split_time = t`; otherwise it records `t` as skipped
with the continuous-speech reason. With no speaker changes no split is ever
emitted, and a boundary at `10` whose only speaker change is at `11.5` is
skipped with the continuous-speech reason. -/
theorem process_shot_changes_step_spec (D : ℚ) (change_times : List ℚ)
    (t last : ℚ) (rest : List ℚ) :
    (t - last < D →
      process_shot_changes_go D change_times (t :: rest) last =
        ((process_shot_changes_go D change_times rest last).1,
          (t, "片段太短") :: (process_shot_changes_go D change_times rest last).2)) ∧
    (¬ t - last < D → (∃ c ∈ change_times, |c - t| < 1) →
      process_shot_changes_go D change_times (t :: rest) last =
        (⟨t, SplitReason.SHOT_CHANGE_AND_SPEAKER_CHANGE, 9/10⟩ ::
            (process_shot_changes_go D change_times rest t).1,
          (process_shot_changes_go D change_times rest t).2)) ∧
    (¬ t - last < D → (∀ c ∈ change_times, ¬ |c - t| < 1) →
      process_shot_changes_go D change_times (t :: rest) last =
        ((process_shot_changes_go D change_times rest last).1,
          (t, "语音连续，不切分") :: (process_shot_changes_go D change_times rest last).2)) ∧
    (∀ shots : List ℚ, (process_shot_changes D shots []).1 = []) ∧
    process_shot_changes 2 [10] [23/2] = ([], [(10, "语音连续，不切分")]) := by
  refine ⟨fun hshort => ?_, fun hlong hnear => ?_, fun hlong hfar => ?_,
    fun shots => process_go_nil_changes D shots 0, ?_⟩
  · simp [process_shot_changes_go, if_pos hshort]
  · have hb : has_speaker_change_near t change_times = true :=
      (has_speaker_change_near_iff t change_times).2 hnear
    simp [process_shot_changes_go, if_neg hlong, hb, SHOT_SPEAKER_CONFIDENCE]
  · have hb : has_speaker_change_near t change_times = false := by
      rw [Bool.eq_false_iff]
      intro hc
      obtain ⟨c, hc1, hc2⟩ := (has_speaker_change_near_iff t change_times).1 hc
      exact hfar c hc1 hc2
    simp [process_shot_changes_go, if_neg hlong, hb]
  · norm_num [process_shot_changes, process_shot_changes_go,
      has_speaker_change_near, SHOT_SPEAKER_TIME_TOLERANCE, abs_lt]

/-- Witness for C3: the continuous-speech case at boundary `10` with the
speaker change at `11.5`, from initial state `last_split_time = 0`. -/
theorem process_shot_changes_step_spec_witness :
    ¬ (10:ℚ) - 0 < 2 ∧ (∀ c ∈ [(23:ℚ)/2], ¬ |c - 10| < 1) ∧
      process_shot_changes_go 2 [23/2] [10] 0 =
        ((process_shot_changes_go 2 [23/2] [] 0).1,
          (10, "语音连续，不切分") :: (process_shot_changes_go 2 [23/2] [] 0).2) :=
  ⟨by norm_num, by norm_num [abs_lt],
    (process_shot_changes_step_spec 2 [23/2] 10 0 []).2.2.1 (by norm_num)
      (by norm_num [abs_lt])⟩

/-- Claim C4: on shot boundaries `[5, 5.4, 20]` with speaker changes
`[5.2, 19.8]`, `D = 2` and tolerance `1`, the engine emits splits at `5` and
`20` with confidence `0.9`, skips `5.4` as too short, the close-split filter
leaves the pair unchanged, and the final timestamps are `[5, 20]`. -/
theorem decision_engine_scenario :
    process_shot_changes 2 [5, 27/5, 20] [26/5, 99/5] =
      ([⟨5, SplitReason.SHOT_CHANGE_AND_SPEAKER_CHANGE, 9/10⟩,
        ⟨20, SplitReason.SHOT_CHANGE_AND_SPEAKER_CHANGE, 9/10⟩],
        [(27/5, "片段太短")]) ∧
    filter_close_splits 2
        [⟨5, SplitReason.SHOT_CHANGE_AND_SPEAKER_CHANGE, 9/10⟩,
          ⟨20, SplitReason.SHOT_CHANGE_AND_SPEAKER_CHANGE, 9/10⟩] =
      [⟨5, SplitReason.SHOT_CHANGE_AND_SPEAKER_CHANGE, 9/10⟩,
        ⟨20, SplitReason.SHOT_CHANGE_AND_SPEAKER_CHANGE, 9/10⟩] ∧
    (filter_close_splits 2
        (process_shot_changes 2 [5, 27/5, 20] [26/5, 99/5]).1).map
      SplitPoint.timestamp = [5, 20] := by
  have h1 : process_shot_changes 2 [5, 27/5, 20] [26/5, 99/5] =
      ([⟨5, SplitReason.SHOT_CHANGE_AND_SPEAKER_CHANGE, 9/10⟩,
        ⟨20, SplitReason.SHOT_CHANGE_AND_SPEAKER_CHANGE, 9/10⟩],
        [(27/5, "片段太短")]) := by
    norm_num [process_shot_changes, process_shot_changes_go,
      has_speaker_change_near, SHOT_SPEAKER_TIME_TOLERANCE,
      SHOT_SPEAKER_CONFIDENCE, abs_lt]
  have h2 : filter_close_splits 2
      [⟨5, SplitReason.SHOT_CHANGE_AND_SPEAKER_CHANGE, 9/10⟩,
        ⟨20, SplitReason.SHOT_CHANGE_AND_SPEAKER_CHANGE, 9/10⟩] =
      [⟨5, SplitReason.SHOT_CHANGE_AND_SPEAKER_CHANGE, 9/10⟩,
        ⟨20, SplitReason.SHOT_CHANGE_AND_SPEAKER_CHANGE, 9/10⟩] := by
    norm_num [filter_close_splits, filter_close_splits_step]
  exact ⟨h1, h2, by rw [h1, h2]; simp⟩

theorem change_times_spec_of_short (segs : List SpeechSegment) :
    ∀ (labels : List ℤ), labels.length < 2 → change_times_spec segs labels = [] := by
  intro labels h
  match labels, h with
  | [], _ => simp [change_times_spec]
  | [l], _ => simp [change_times_spec]

theorem find_speaker_changes_core :
    ∀ (labels : List ℤ) (segs : List SpeechSegment),
      labels.length = segs.length →
      (List.range (labels.length - 1)).filterMap (fun i =>
        if labels.getD (i + 1) 0 ≠ labels.getD i 0 then
          some ((segs.getD i default).«end»)
        else none) = change_times_spec segs labels := by
  intro labels
  induction labels with
  | nil => intro segs h; simp [change_times_spec]
  | cons l ls ih =>
    intro segs h
    match ls, ih with
    | [], _ => simp [change_times_spec]
    | l1 :: ls1, ih =>
      match segs, h with
      | s :: ss, h =>
        have hlen : (l1 :: ls1).length = ss.length := by simpa using h
        have hr : (l :: l1 :: ls1).length - 1 = ls1.length + 1 := by simp
        rw [hr, List.range_succ_eq_map, List.filterMap_cons, List.filterMap_map]
        have hcomp : ((fun i =>
            if (l :: l1 :: ls1).getD (i + 1) 0 ≠ (l :: l1 :: ls1).getD i 0 then
              some (((s :: ss).getD i default).«end») else none) ∘ Nat.succ) =
            (fun i =>
              if (l1 :: ls1).getD (i + 1) 0 ≠ (l1 :: ls1).getD i 0 then
                some ((ss.getD i default).«end») else none) := by
          funext i
          simp [Function.comp, List.getD_cons_succ]
        rw [hcomp]
        have htail := ih ss hlen
        have hr2 : (l1 :: ls1).length - 1 = ls1.length := by simp
        rw [hr2] at htail
        rw [htail]
        by_cases hll : l = l1
        · simp [change_times_spec, hll]
        · simp [change_times_spec, hll, Ne.symm hll]

/-- Claim C5: the ChangePointProjector agrees with the spec wording: for
index-paired spans and labels, one change time per adjacent differing label
pair, stamped at the end of the earlier span, in index order; fewer than two
labels yield the empty list; and labels `[0,0,1,1,0]` over spans ending at
`[1,2,3,4,5]` yield `[2,4]`. -/
theorem change_point_projector_spec (speech_segments : List SpeechSegment)
    (speaker_labels : List ℤ) :
    (speaker_labels.length = speech_segments.length →
      find_speaker_changes speech_segments speaker_labels =
        change_times_spec speech_segments speaker_labels) ∧
    (speaker_labels.length < 2 →
      find_speaker_changes speech_segments speaker_labels = []) ∧
    find_speaker_changes
        [⟨0, 1, ""⟩, ⟨1, 2, ""⟩, ⟨2, 3, ""⟩, ⟨3, 4, ""⟩, ⟨4, 5, ""⟩]
        [0, 0, 1, 1, 0] = [2, 4] := by
  refine ⟨fun h => ?_, fun h => by simp [find_speaker_changes, h], by decide⟩
  unfold find_speaker_changes
  split
  · rw [change_times_spec_of_short speech_segments speaker_labels (by assumption)]
  · exact find_speaker_changes_core speaker_labels speech_segments h

/-- Witness for C5: both implications instantiated at spans ending
`[1,2,3,4,5]` with labels `[0,0,1,1,0]` respectively at a single label. -/
theorem change_point_projector_spec_witness :
    ([(0:ℤ), 0, 1, 1, 0].length =
        ([⟨0, 1, ""⟩, ⟨1, 2, ""⟩, ⟨2, 3, ""⟩, ⟨3, 4, ""⟩, ⟨4, 5, ""⟩] :
          List SpeechSegment).length) ∧
      find_speaker_changes
          [⟨0, 1, ""⟩, ⟨1, 2, ""⟩, ⟨2, 3, ""⟩, ⟨3, 4, ""⟩, ⟨4, 5, ""⟩]
          [0, 0, 1, 1, 0] =
        change_times_spec
          [⟨0, 1, ""⟩, ⟨1, 2, ""⟩, ⟨2, 3, ""⟩, ⟨3, 4, ""⟩, ⟨4, 5, ""⟩]
          [0, 0, 1, 1, 0] ∧
      ([(7:ℤ)].length < 2 ∧
        find_speaker_changes [⟨0, 1, ""⟩] [7] = []) :=
  ⟨by decide,
    (change_point_projector_spec
        [⟨0, 1, ""⟩, ⟨1, 2, ""⟩, ⟨2, 3, ""⟩, ⟨3, 4, ""⟩, ⟨4, 5, ""⟩]
        [0, 0, 1, 1, 0]).1 (by decide),
    by decide,
    (change_point_projector_spec [⟨0, 1, ""⟩] [7]).2.1 (by decide)⟩

theorem get_segments_info_length (splits : List SplitPoint) (Tmax : ℚ) :
    (get_segments_info splits Tmax).length = splits.length + 1 := by
  simp [get_segments_info]

theorem get_segments_info_getElem (splits : List SplitPoint) (Tmax : ℚ)
    (i : ℕ) (h : i < (get_segments_info splits Tmax).length) :
    (get_segments_info splits Tmax)[i] =
      ⟨i, (0 :: splits.map SplitPoint.timestamp ++ [Tmax]).getD i 0,
        (0 :: splits.map SplitPoint.timestamp ++ [Tmax]).getD (i + 1) 0,
        (0 :: splits.map SplitPoint.timestamp ++ [Tmax]).getD (i + 1) 0 -
          (0 :: splits.map SplitPoint.timestamp ++ [Tmax]).getD i 0⟩ := by
  have h' : i < (List.range
      ((0 :: splits.map SplitPoint.timestamp ++ [Tmax]).length - 1)).length := by
    simpa [get_segments_info] using h
  show ((List.range
      ((0 :: splits.map SplitPoint.timestamp ++ [Tmax]).length - 1)).map _)[i] = _
  rw [List.getElem_map]
  rw [List.getElem_range]

/-- Claim C1: `get_segments_info` builds the boundary sequence
`[0, t_1, …, t_k, Tmax]` and returns `k + 1` segments with
`segment[i] = (i, boundary[i], boundary[i+1], boundary[i+1] - boundary[i])`;
hence segment `0` starts at `0`, the last segment ends at `Tmax`, adjacent
segments share their boundary, and when the boundary sequence is strictly
ascending every segment has positive extent, so the segments partition
`[0, Tmax]` with no gaps or overlaps. -/
theorem segment_projector_partition (splits : List SplitPoint) (Tmax : ℚ) :
    (get_segments_info splits Tmax).length = splits.length + 1 ∧
    (∀ i (h : i < (get_segments_info splits Tmax).length),
      (get_segments_info splits Tmax)[i] =
        ⟨i, (0 :: splits.map SplitPoint.timestamp ++ [Tmax]).getD i 0,
          (0 :: splits.map SplitPoint.timestamp ++ [Tmax]).getD (i + 1) 0,
          (0 :: splits.map SplitPoint.timestamp ++ [Tmax]).getD (i + 1) 0 -
            (0 :: splits.map SplitPoint.timestamp ++ [Tmax]).getD i 0⟩) ∧
    ((get_segments_info splits Tmax).getD 0 default).start = 0 ∧
    ((get_segments_info splits Tmax).getD
        ((get_segments_info splits Tmax).length - 1) default).«end» = Tmax ∧
    (∀ i, i + 1 < (get_segments_info splits Tmax).length →
      ((get_segments_info splits Tmax).getD i default).«end» =
        ((get_segments_info splits Tmax).getD (i + 1) default).start) ∧
    (List.Chain' (· < ·) (0 :: splits.map SplitPoint.timestamp ++ [Tmax]) →
      ∀ seg ∈ get_segments_info splits Tmax, seg.start < seg.«end») := by
  have hlen := get_segments_info_length splits Tmax
  have hts : (0 :: splits.map SplitPoint.timestamp ++ [Tmax]).length =
      splits.length + 2 := by simp
  refine ⟨hlen, get_segments_info_getElem splits Tmax, ?_, ?_, ?_, ?_⟩
  · have h0 : 0 < (get_segments_info splits Tmax).length := by omega
    rw [List.getD_eq_getElem _ _ h0, get_segments_info_getElem splits Tmax 0 h0]
    simp
  · have hl : (get_segments_info splits Tmax).length - 1 <
        (get_segments_info splits Tmax).length := by omega
    rw [List.getD_eq_getElem _ _ hl,
      get_segments_info_getElem splits Tmax _ hl, hlen]
    show (0 :: splits.map SplitPoint.timestamp ++ [Tmax]).getD
      (splits.length + 1 - 1 + 1) 0 = Tmax
    have hidx : splits.length + 1 - 1 + 1 =
        (0 :: splits.map SplitPoint.timestamp).length := by simp
    rw [hidx, List.getD_append_right _ _ _ _ (le_refl _), Nat.sub_self]
    rfl
  · intro i hi
    have hi1 : i < (get_segments_info splits Tmax).length := by omega
    rw [List.getD_eq_getElem _ _ hi1, List.getD_eq_getElem _ _ hi,
      get_segments_info_getElem splits Tmax i hi1,
      get_segments_info_getElem splits Tmax (i + 1) hi]
  · intro hchain seg hseg
    obtain ⟨i, hi, hv⟩ := List.mem_iff_getElem.1 hseg
    rw [get_segments_info_getElem splits Tmax i hi] at hv
    have hi2 : i + 1 < (0 :: splits.map SplitPoint.timestamp ++ [Tmax]).length := by
      omega
    have hi1 : i < (0 :: splits.map SplitPoint.timestamp ++ [Tmax]).length := by
      omega
    have hlt := List.chain'_iff_get.1 hchain i (by omega)
    rw [List.get_eq_getElem, List.get_eq_getElem] at hlt
    rw [← hv]
    show (0 :: splits.map SplitPoint.timestamp ++ [Tmax]).getD i 0 <
      (0 :: splits.map SplitPoint.timestamp ++ [Tmax]).getD (i + 1) 0
    rw [List.getD_eq_getElem _ _ hi1, List.getD_eq_getElem _ _ hi2]
    exact hlt

/-- Witness for C1: a single split at `3` inside a video of duration `10`;
the boundary sequence `[0, 3, 10]` is strictly ascending. -/
theorem segment_projector_partition_witness :
    List.Chain' (· < ·)
        (0 :: ([⟨3, SplitReason.SHOT_CHANGE_AND_SPEAKER_CHANGE, 9/10⟩] :
          List SplitPoint).map SplitPoint.timestamp ++ [(10:ℚ)]) ∧
      ∀ seg ∈ get_segments_info
        [⟨3, SplitReason.SHOT_CHANGE_AND_SPEAKER_CHANGE, 9/10⟩] (10:ℚ),
        seg.start < seg.«end» :=
  ⟨by norm_num [List.chain'_cons],
    (segment_projector_partition
        [⟨3, SplitReason.SHOT_CHANGE_AND_SPEAKER_CHANGE, 9/10⟩] 10).2.2.2.2.2
      (by norm_num [List.chain'_cons])⟩

theorem filter_step_eq_append (D : ℚ) (last : SplitPoint)
    (accTail : List SplitPoint) (x : SplitPoint)
    (h : D ≤ x.timestamp - last.timestamp) :
    filter_close_splits_step D (last :: accTail) x = x :: last :: accTail := by
  simp [filter_close_splits_step, if_pos h]

theorem filter_fold_chain (D : ℚ) :
    ∀ (rest : List SplitPoint) (last : SplitPoint) (accTail : List SplitPoint),
      List.Pairwise (fun a b : SplitPoint => a.timestamp ≤ b.timestamp) rest →
      (∀ x ∈ rest, last.timestamp ≤ x.timestamp) →
      List.Chain' (fun a b => D ≤ a.timestamp - b.timestamp) (last :: accTail) →
      List.Chain' (fun a b => D ≤ a.timestamp - b.timestamp)
        (rest.foldl (filter_close_splits_step D) (last :: accTail)) := by
  intro rest
  induction rest with
  | nil => intro last accTail _ _ hc; simpa using hc
  | cons x xs ih =>
    intro last accTail hp hge hc
    have hxlast : last.timestamp ≤ x.timestamp := hge x (List.mem_cons_self x xs)
    have hpx : List.Pairwise (fun a b : SplitPoint => a.timestamp ≤ b.timestamp) xs :=
      (List.pairwise_cons.1 hp).2
    have hxxs : ∀ y ∈ xs, x.timestamp ≤ y.timestamp :=
      (List.pairwise_cons.1 hp).1
    rw [List.foldl_cons]
    by_cases hgap : x.timestamp - last.timestamp ≥ D
    · rw [filter_step_eq_append D last accTail x hgap]
      exact ih x (last :: accTail) hpx hxxs (List.Chain'.cons hgap hc)
    · by_cases hconf : x.confidence > last.confidence
      · have hstep : filter_close_splits_step D (last :: accTail) x = x :: accTail := by
          simp [filter_close_splits_step, if_neg hgap, if_pos hconf]
        rw [hstep]
        refine ih x accTail hpx hxxs ?_
        match accTail, hc with
        | [], _ => exact List.chain'_singleton x
        | p :: ps, hc =>
          have h1 : D ≤ last.timestamp - p.timestamp :=
            (List.chain'_cons.1 hc).1
          have h2 := (List.chain'_cons.1 hc).2
          exact List.chain'_cons.2 ⟨by linarith, h2⟩
      · have hstep : filter_close_splits_step D (last :: accTail) x =
            last :: accTail := by
          simp [filter_close_splits_step, if_neg hgap, if_neg hconf]
        rw [hstep]
        exact ih last accTail hpx
          (fun y hy => le_trans hxlast (hxxs y hy)) hc

theorem filter_close_splits_chain (D : ℚ) (splits : List SplitPoint)
    (hp : List.Pairwise (fun a b : SplitPoint => a.timestamp ≤ b.timestamp) splits) :
    List.Chain' (fun a b => D ≤ b.timestamp - a.timestamp)
      (filter_close_splits D splits) := by
  unfold filter_close_splits
  split
  · match splits with
    | [] => simp
    | [s] => simp
    | s :: t :: rest => simp_all
  · match splits with
    | [] => simp
    | s :: rest =>
      show List.Chain' _ ((rest.foldl (filter_close_splits_step D) [s]).reverse)
      rw [List.chain'_reverse]
      exact filter_fold_chain D rest s []
        (List.pairwise_cons.1 hp).2 (List.pairwise_cons.1 hp).1
        (List.chain'_singleton s)

theorem filter_fold_id_of_chain (D : ℚ) :
    ∀ (rest : List SplitPoint) (last : SplitPoint) (accTail : List SplitPoint),
      List.Chain' (fun a b => D ≤ b.timestamp - a.timestamp) (last :: rest) →
      rest.foldl (filter_close_splits_step D) (last :: accTail) =
        rest.reverse ++ last :: accTail := by
  intro rest
  induction rest with
  | nil => intro last accTail _; simp
  | cons x xs ih =>
    intro last accTail hc
    have h1 : D ≤ x.timestamp - last.timestamp := (List.chain'_cons.1 hc).1
    have h2 := (List.chain'_cons.1 hc).2
    rw [List.foldl_cons, filter_step_eq_append D last accTail x h1,
      ih x (last :: accTail) h2]
    simp

theorem filter_close_splits_id_of_chain (D : ℚ) (l : List SplitPoint)
    (hc : List.Chain' (fun a b => D ≤ b.timestamp - a.timestamp) l) :
    filter_close_splits D l = l := by
  unfold filter_close_splits
  split
  · rfl
  · match l, hc with
    | s :: rest, hc =>
      show (rest.foldl (filter_close_splits_step D) [s]).reverse = s :: rest
      rw [filter_fold_id_of_chain D rest s [] hc]
      simp

theorem splitPointLE_sorts (l : List SplitPoint) :
    List.Pairwise (fun a b : SplitPoint => a.timestamp ≤ b.timestamp)
      (l.mergeSort splitPointLE) := by
  have h := @List.sorted_mergeSort SplitPoint splitPointLE
    (fun a b c hab hbc => by
      simp only [splitPointLE, decide_eq_true_eq] at *
      exact le_trans hab hbc)
    (fun a b => by
      simp only [splitPointLE, Bool.or_eq_true, decide_eq_true_eq]
      exact le_total a.timestamp b.timestamp)
    l
  exact h.imp fun hab => by
    simpa [splitPointLE] using hab

/-- Claim C2: in any `analyze` result, consecutive final split timestamps
differ by at least `D`, and the close-split filter is idempotent on its own
output for timestamp-ascending input. -/
theorem final_splits_spacing_and_idempotence (D : ℚ) (shot_changes : List ℚ)
    (speech_segments : List SpeechSegment) (video_duration : ℚ)
    (speaker_labels : List ℤ) (splits : List SplitPoint) :
    List.Chain' (fun a b => D ≤ b.timestamp - a.timestamp)
      (analyze D shot_changes speech_segments video_duration
        speaker_labels).final_splits ∧
    (List.Pairwise (fun a b : SplitPoint => a.timestamp ≤ b.timestamp) splits →
      filter_close_splits D (filter_close_splits D splits) =
        filter_close_splits D splits) := by
  constructor
  · show List.Chain' _ (filter_close_splits D _)
    exact filter_close_splits_chain D _ (splitPointLE_sorts _)
  · intro hp
    exact filter_close_splits_id_of_chain D _ (filter_close_splits_chain D splits hp)

/-- Witness for C2: idempotence at the ascending two-element list with
timestamps `5` and `20`. -/
theorem final_splits_spacing_and_idempotence_witness :
    List.Pairwise (fun a b : SplitPoint => a.timestamp ≤ b.timestamp)
        [⟨5, SplitReason.SHOT_CHANGE_AND_SPEAKER_CHANGE, 9/10⟩,
          ⟨20, SplitReason.SHOT_CHANGE_AND_SPEAKER_CHANGE, 9/10⟩] ∧
      filter_close_splits 2 (filter_close_splits 2
          [⟨5, SplitReason.SHOT_CHANGE_AND_SPEAKER_CHANGE, 9/10⟩,
            ⟨20, SplitReason.SHOT_CHANGE_AND_SPEAKER_CHANGE, 9/10⟩]) =
        filter_close_splits 2
          [⟨5, SplitReason.SHOT_CHANGE_AND_SPEAKER_CHANGE, 9/10⟩,
            ⟨20, SplitReason.SHOT_CHANGE_AND_SPEAKER_CHANGE, 9/10⟩] :=
  ⟨by norm_num [List.pairwise_cons],
    (final_splits_spacing_and_idempotence 2 [] [] 0 []
        [⟨5, SplitReason.SHOT_CHANGE_AND_SPEAKER_CHANGE, 9/10⟩,
          ⟨20, SplitReason.SHOT_CHANGE_AND_SPEAKER_CHANGE, 9/10⟩]).2
      (by norm_num [List.pairwise_cons])⟩

theorem process_go_mem_min (D : ℚ) (changes : List ℚ) (hD : 0 ≤ D) :
    ∀ (shots : List ℚ) (last : ℚ), 0 ≤ last →
      ∀ p ∈ (process_shot_changes_go D changes shots last).1,
        p.timestamp ∈ shots ∧ D ≤ p.timestamp := by
  intro shots
  induction shots with
  | nil => intro last _ p hp; simp [process_shot_changes_go] at hp
  | cons t rest ih =>
    intro last hlast p hp
    simp only [process_shot_changes_go] at hp
    split at hp
    · obtain ⟨h1, h2⟩ := ih last hlast p hp
      exact ⟨List.mem_cons_of_mem t h1, h2⟩
    · rename_i hlong
      have hge : D ≤ t - last := not_lt.1 hlong
      split at hp
      · rcases List.mem_cons.1 hp with rfl | hp'
        · exact ⟨List.mem_cons_self t rest, by linarith⟩
        · obtain ⟨h1, h2⟩ := ih t (by linarith) p hp'
          exact ⟨List.mem_cons_of_mem t h1, h2⟩
      · obtain ⟨h1, h2⟩ := ih last hlast p hp
        exact ⟨List.mem_cons_of_mem t h1, h2⟩

theorem filter_step_mem (D : ℚ) (acc : List SplitPoint) (y x : SplitPoint)
    (h : x ∈ filter_close_splits_step D acc y) : x ∈ y :: acc := by
  match acc with
  | [] => simpa [filter_close_splits_step] using h
  | last :: prev =>
    simp only [filter_close_splits_step] at h
    split at h
    · exact h
    · split at h
      · rcases List.mem_cons.1 h with rfl | h'
        · exact List.mem_cons_self x (last :: prev)
        · exact List.mem_cons_of_mem y (List.mem_cons_of_mem last h')
      · exact List.mem_cons_of_mem y h

theorem filter_fold_subset (D : ℚ) :
    ∀ (rest acc : List SplitPoint) (x : SplitPoint),
      x ∈ rest.foldl (filter_close_splits_step D) acc → x ∈ rest ++ acc := by
  intro rest
  induction rest with
  | nil => intro acc x hx; simpa using hx
  | cons y ys ih =>
    intro acc x hx
    rw [List.foldl_cons] at hx
    have hy := ih (filter_close_splits_step D acc y) x hx
    rcases List.mem_append.1 hy with h | h
    · exact List.mem_cons_of_mem y (List.mem_append_left acc h)
    · rcases List.mem_cons.1 (filter_step_mem D acc y x h) with rfl | h'
      · exact List.mem_cons_self x (ys ++ acc)
      · exact List.mem_cons_of_mem y (List.mem_append_right ys h')

theorem filter_close_splits_subset (D : ℚ) (l : List SplitPoint) (x : SplitPoint)
    (hx : x ∈ filter_close_splits D l) : x ∈ l := by
  unfold filter_close_splits at hx
  split at hx
  · exact hx
  · match l, hx with
    | s :: rest, hx =>
      have hx' : x ∈ rest.foldl (filter_close_splits_step D) [s] := by
        simpa using List.mem_reverse.1 (by simpa using hx)
      rcases List.mem_append.1 (filter_fold_subset D rest [s] x hx') with h | h
      · exact List.mem_cons_of_mem s h
      · simp_all

/-- Claim C9: with a nonnegative minimum duration `D`, every final split of
`analyze` has a timestamp that is one of the input shot boundaries and is at
least `D`. -/
theorem final_splits_mem_shots_and_min (D : ℚ) (hD : 0 ≤ D)
    (shot_changes : List ℚ) (speech_segments : List SpeechSegment)
    (video_duration : ℚ) (speaker_labels : List ℤ) :
    ∀ p ∈ (analyze D shot_changes speech_segments video_duration
        speaker_labels).final_splits,
      p.timestamp ∈ shot_changes ∧ D ≤ p.timestamp := by
  intro p hp
  have hp1 : p ∈ (process_shot_changes D shot_changes
      (find_speaker_changes speech_segments speaker_labels)).1.mergeSort
        splitPointLE :=
    filter_close_splits_subset D _ p hp
  have hp2 : p ∈ (process_shot_changes D shot_changes
      (find_speaker_changes speech_segments speaker_labels)).1 :=
    (List.mergeSort_perm _ splitPointLE).mem_iff.1 hp1
  exact process_go_mem_min D _ hD shot_changes 0 le_rfl p hp2

/-- Witness for C9: the scenario run with `D = 2`; the split at `5` lies in
the input shot list and is at least `2`. -/
theorem final_splits_mem_shots_and_min_witness :
    (0:ℚ) ≤ 2 ∧
      ∀ p ∈ (analyze 2 [5, 27/5, 20]
          [⟨0, 26/5, ""⟩, ⟨26/5, 99/5, ""⟩, ⟨99/5, 21, ""⟩] 21
          [0, 1, 2]).final_splits,
        p.timestamp ∈ [(5:ℚ), 27/5, 20] ∧ (2:ℚ) ≤ p.timestamp :=
  ⟨by norm_num,
    final_splits_mem_shots_and_min 2 (by norm_num) [5, 27/5, 20]
      [⟨0, 26/5, ""⟩, ⟨26/5, 99/5, ""⟩, ⟨99/5, 21, ""⟩] 21 [0, 1, 2]⟩

theorem process_go_count (D : ℚ) (changes : List ℚ) :
    ∀ (shots : List ℚ) (last : ℚ),
      (process_shot_changes_go D changes shots last).1.length +
        (process_shot_changes_go D changes shots last).2.length =
        shots.length := by
  intro shots
  induction shots with
  | nil => intro last; simp [process_shot_changes_go]
  | cons t rest ih =>
    intro last
    simp only [process_shot_changes_go]
    split
    · have := ih last; simp only [List.length_cons]; omega
    · split
      · have := ih t; simp only [List.length_cons]; omega
      · have := ih last; simp only [List.length_cons]; omega

theorem process_go_skipped_sublist (D : ℚ) (changes : List ℚ) :
    ∀ (shots : List ℚ) (last : ℚ),
      ((process_shot_changes_go D changes shots last).2.map
        Prod.fst).Sublist shots := by
  intro shots
  induction shots with
  | nil => intro last; simp [process_shot_changes_go]
  | cons t rest ih =>
    intro last
    simp only [process_shot_changes_go]
    split
    · simpa using List.Sublist.cons₂ t (ih last)
    · split
      · exact List.Sublist.cons t (ih t)
      · simpa using List.Sublist.cons₂ t (ih last)

theorem filter_fold_length (D : ℚ) :
    ∀ (rest acc : List SplitPoint),
      (rest.foldl (filter_close_splits_step D) acc).length ≤
        rest.length + acc.length := by
  intro rest
  induction rest with
  | nil => intro acc; simp
  | cons y ys ih =>
    intro acc
    rw [List.foldl_cons]
    have hstep : (filter_close_splits_step D acc y).length ≤ acc.length + 1 := by
      match acc with
      | [] => simp [filter_close_splits_step]
      | last :: prev =>
        simp only [filter_close_splits_step]
        split
        · simp
        · split <;> simp
    calc (ys.foldl (filter_close_splits_step D)
          (filter_close_splits_step D acc y)).length ≤
        ys.length + (filter_close_splits_step D acc y).length := ih _
      _ ≤ ys.length + (acc.length + 1) := by omega
      _ = (y :: ys).length + acc.length := by simp; omega

theorem filter_close_splits_length (D : ℚ) (l : List SplitPoint) :
    (filter_close_splits D l).length ≤ l.length := by
  unfold filter_close_splits
  split
  · exact le_rfl
  · match l with
    | [] => simp
    | s :: rest =>
      show (rest.foldl (filter_close_splits_step D) [s]).reverse.length ≤ _
      rw [List.length_reverse]
      have := filter_fold_length D rest [s]
      simpa using this

/-- Claim C10: the forward pass assigns each shot boundary to exactly one of
its two output lists, the skipped timestamps form a subsequence of the input
shot list, and after the close-split filter the final split count plus the
skipped count is at most the number of input shot boundaries. -/
theorem forward_pass_accounts_for_shots (D : ℚ) (shot_changes : List ℚ)
    (speaker_change_times : List ℚ) (speech_segments : List SpeechSegment)
    (video_duration : ℚ) (speaker_labels : List ℤ) :
    (process_shot_changes D shot_changes speaker_change_times).1.length +
        (process_shot_changes D shot_changes speaker_change_times).2.length =
      shot_changes.length ∧
    ((process_shot_changes D shot_changes speaker_change_times).2.map
      Prod.fst).Sublist shot_changes ∧
    (analyze D shot_changes speech_segments video_duration
          speaker_labels).final_splits.length +
        (analyze D shot_changes speech_segments video_duration
          speaker_labels).skipped_shots.length ≤
      shot_changes.length := by
  refine ⟨process_go_count D speaker_change_times shot_changes 0,
    process_go_skipped_sublist D speaker_change_times shot_changes 0, ?_⟩
  have h1 := filter_close_splits_length D
    ((process_shot_changes_go D
      (find_speaker_changes speech_segments speaker_labels) shot_changes 0).1.mergeSort
        splitPointLE)
  have h2 := (List.mergeSort_perm (process_shot_changes_go D
    (find_speaker_changes speech_segments speaker_labels) shot_changes 0).1
      splitPointLE).length_eq
  have h3 := process_go_count D
    (find_speaker_changes speech_segments speaker_labels) shot_changes 0
  show (filter_close_splits D ((process_shot_changes_go D
      (find_speaker_changes speech_segments speaker_labels)
        shot_changes 0).1.mergeSort splitPointLE)).length +
    (process_shot_changes_go D
      (find_speaker_changes speech_segments speaker_labels)
        shot_changes 0).2.length ≤ shot_changes.length
  omega

theorem valid_indices_length_le (embeddings : List (List ℚ)) :
    (valid_indices embeddings).length ≤ embeddings.length := by
  calc (valid_indices embeddings).length ≤
      (List.range embeddings.length).length :=
    List.length_filter_le _ _
    _ = embeddings.length := List.length_range _

/-- Claim C6: when the input has fewer than two embeddings, or fewer than two
valid (not all-zero) embeddings remain after filtering, `_cluster_speakers`
returns one label per input embedding, all equal to `0`. -/
theorem cluster_speakers_degenerate (find_optimal : List (List ℚ) → List ℤ)
    (embeddings : List (List ℚ))
    (h : embeddings.length < 2 ∨ (valid_indices embeddings).length < 2) :
    cluster_speakers find_optimal embeddings =
      List.replicate embeddings.length 0 := by
  have hv : (valid_indices embeddings).length < 2 := by
    rcases h with h | h
    · have := valid_indices_length_le embeddings
      omega
    · exact h
  simp [cluster_speakers, if_pos hv]

/-- Witness for C6: two embeddings of which only one is valid; both labels
come back `0`, whatever the clustering oracle would have answered. -/
theorem cluster_speakers_degenerate_witness :
    (([[0], [1]] : List (List ℚ)).length < 2 ∨
        (valid_indices [[0], [1]]).length < 2) ∧
      cluster_speakers (fun _ => [5, 7]) [[0], [1]] =
        List.replicate ([[0], [1]] : List (List ℚ)).length 0 :=
  ⟨Or.inr (by decide),
    cluster_speakers_degenerate (fun _ => [5, 7]) [[0], [1]]
      (Or.inr (by decide))⟩

theorem valid_indices_cons (e : List ℚ) (es : List (List ℚ)) :
    valid_indices (e :: es) =
      (if e.any (fun x => decide (x ≠ 0)) then [0] else []) ++
        (valid_indices es).map Nat.succ := by
  unfold valid_indices
  rw [show (e :: es).length = es.length + 1 from rfl,
    List.range_succ_eq_map, List.filter_cons, List.filter_map]
  have hp : ((fun i => (List.getD (e :: es) i []).any fun x => decide (x ≠ 0)) ∘
      Nat.succ) = fun i => (List.getD es i []).any fun x => decide (x ≠ 0) := by
    funext i
    simp [Function.comp, List.getD_cons_succ]
  rw [hp]
  simp [List.getD_cons_zero]
  split <;> simp

theorem masked_labels_nil :
    ∀ (es : List (List ℚ)), masked_labels es [] = List.replicate es.length (-1) := by
  intro es
  induction es with
  | nil => simp [masked_labels]
  | cons e es ih =>
    rw [masked_labels]
    split <;> simp [ih, List.replicate_succ]

theorem foldl_set_map_succ (ps : List (ℕ × ℤ)) (a : ℤ) (arr : List ℤ) :
    (ps.map fun p => (p.1 + 1, p.2)).foldl (fun l q => l.set q.1 q.2) (a :: arr) =
      a :: ps.foldl (fun l q => l.set q.1 q.2) arr := by
  induction ps generalizing arr with
  | nil => simp
  | cons p ps ih =>
    rw [List.map_cons, List.foldl_cons, List.foldl_cons, List.set_cons_succ]
    exact ih (arr.set p.1 p.2)

theorem zip_map_succ (idxs : List ℕ) (vals : List ℤ) :
    (idxs.map Nat.succ).zip vals =
      (idxs.zip vals).map fun p => (p.1 + 1, p.2) := by
  rw [List.zip_map_left]
  rfl

theorem scatter_eq_masked :
    ∀ (embeddings : List (List ℚ)) (vals : List ℤ),
      scatter_labels embeddings.length (valid_indices embeddings) vals =
        masked_labels embeddings vals := by
  intro embeddings
  induction embeddings with
  | nil => intro vals; simp [scatter_labels, valid_indices, masked_labels]
  | cons e es ih =>
    intro vals
    unfold scatter_labels
    rw [valid_indices_cons]
    by_cases hv : e.any (fun x => decide (x ≠ 0)) = true
    · rw [if_pos hv]
      cases vals with
      | nil =>
        rw [List.zip_nil_right]
        simp only [List.foldl_nil]
        rw [masked_labels, if_pos hv]
        simp [masked_labels_nil, List.replicate_succ]
      | cons v vs =>
        rw [List.singleton_append,
          show (e :: es).length = es.length + 1 from rfl,
          List.zip_cons_cons, List.foldl_cons, List.replicate_succ,
          List.set_cons_zero, zip_map_succ, foldl_set_map_succ]
        rw [masked_labels, if_pos hv, List.headD_cons, List.tail_cons]
        have := ih vs
        unfold scatter_labels at this
        rw [this]
    · rw [if_neg hv, List.nil_append,
        show (e :: es).length = es.length + 1 from rfl,
        List.replicate_succ, zip_map_succ, foldl_set_map_succ]
      rw [masked_labels, if_neg hv]
      have := ih vals
      unfold scatter_labels at this
      rw [this]

theorem fill_masked_eq_spec :
    ∀ (embeddings : List (List ℚ)) (vals : List ℤ) (prev : ℤ),
      (∀ v ∈ vals, 0 ≤ v) →
      vals.length = (valid_indices embeddings).length →
      fill_invalid_labels prev (masked_labels embeddings vals) =
        cluster_labels_spec prev embeddings vals := by
  intro embeddings
  induction embeddings with
  | nil => intro vals prev _ _; simp [masked_labels, fill_invalid_labels,
      cluster_labels_spec]
  | cons e es ih =>
    intro vals prev hpos hlen
    rw [valid_indices_cons] at hlen
    by_cases hv : e.any (fun x => decide (x ≠ 0)) = true
    · rw [if_pos hv] at hlen
      cases vals with
      | nil => simp at hlen
      | cons v vs =>
        have hvpos : 0 ≤ v := hpos v (List.mem_cons_self v vs)
        have hvne : ¬ v = -1 := by omega
        rw [masked_labels, if_pos hv, List.headD_cons, List.tail_cons,
          fill_invalid_labels]
        rw [cluster_labels_spec, if_pos hv, List.headD_cons, List.tail_cons]
        simp only [if_neg hvne]
        congr 1
        refine ih vs v (fun w hw => hpos w (List.mem_cons_of_mem v hw)) ?_
        simpa using hlen
    · rw [if_neg hv, List.nil_append] at hlen
      rw [masked_labels, if_neg hv, fill_invalid_labels,
        cluster_labels_spec, if_neg hv]
      simp only [if_pos rfl]
      congr 1
      exact ih vals prev hpos (by simpa using hlen)

/-- Claim C7: when at least two valid embeddings exist and the clustering
oracle returns one nonnegative label per valid embedding,
`_cluster_speakers` equals the spec description: valid positions receive the
cluster labels computed on the valid subset in order, and each invalid
position receives the label of the nearest preceding valid position, or `0`
when none precedes it. -/
theorem cluster_speakers_spec (find_optimal : List (List ℚ) → List ℤ)
    (embeddings : List (List ℚ))
    (h2 : 2 ≤ (valid_indices embeddings).length)
    (hlen : (find_optimal (valid_embeddings embeddings)).length =
      (valid_indices embeddings).length)
    (hpos : ∀ v ∈ find_optimal (valid_embeddings embeddings), 0 ≤ v) :
    cluster_speakers find_optimal embeddings =
      cluster_labels_spec 0 embeddings
        (find_optimal (valid_embeddings embeddings)) := by
  unfold cluster_speakers
  rw [if_neg (by omega)]
  show fill_invalid_labels 0 (scatter_labels embeddings.length
    (valid_indices embeddings) (find_optimal (valid_embeddings embeddings))) = _
  rw [scatter_eq_masked]
  exact fill_masked_eq_spec embeddings _ 0 hpos hlen

/-- Witness for C7: embeddings `[[1], [0], [2]]` with valid positions `0`
and `2` and a clustering oracle answering `[0, 1]`; the invalid middle
position inherits the label of position `0`. -/
theorem cluster_speakers_spec_witness :
    2 ≤ (valid_indices [[1], [0], [2]]).length ∧
      (((fun _ => [0, 1]) : List (List ℚ) → List ℤ)
          (valid_embeddings [[1], [0], [2]])).length =
        (valid_indices [[1], [0], [2]]).length ∧
      (∀ v ∈ (((fun _ => [0, 1]) : List (List ℚ) → List ℤ)
          (valid_embeddings [[1], [0], [2]])), 0 ≤ v) ∧
      cluster_speakers (fun _ => [0, 1]) [[1], [0], [2]] =
        cluster_labels_spec 0 [[1], [0], [2]]
          (((fun _ => [0, 1]) : List (List ℚ) → List ℤ)
            (valid_embeddings [[1], [0], [2]])) :=
  ⟨by decide, by decide, by decide,
    cluster_speakers_spec (fun _ => [0, 1]) [[1], [0], [2]]
      (by decide) (by decide) (by decide)⟩

theorem optimal_step_fst_mono
    (cluster : ℕ → List (List ℚ) → Except String (List ℤ))
    (score : List (List ℚ) → List ℤ → Except String ℚ)
    (embeddings : List (List ℚ)) (acc : ℚ × Option (List ℤ) × ℕ) (k : ℕ) :
    acc.1 ≤ (optimal_clusters_step cluster score embeddings acc k).1 := by
  unfold optimal_clusters_step
  cases hcl : cluster k embeddings with
  | error e => simp only [hcl]; exact le_refl acc.1
  | ok labels =>
    simp only [hcl]
    cases hsc : score embeddings labels with
    | error e => simp only [hsc]; exact le_refl acc.1
    | ok s =>
      simp only [hsc]
      by_cases hgt : s > acc.1
      · rw [if_pos hgt]; exact le_of_lt hgt
      · rw [if_neg hgt]

theorem optimal_fold_fst_mono
    (cluster : ℕ → List (List ℚ) → Except String (List ℤ))
    (score : List (List ℚ) → List ℤ → Except String ℚ)
    (embeddings : List (List ℚ)) :
    ∀ (l : List ℕ) (acc : ℚ × Option (List ℤ) × ℕ),
      acc.1 ≤ (l.foldl (optimal_clusters_step cluster score embeddings) acc).1 := by
  intro l
  induction l with
  | nil => intro acc; exact le_rfl
  | cons x xs ih =>
    intro acc
    rw [List.foldl_cons]
    exact le_trans (optimal_step_fst_mono cluster score embeddings acc x) (ih _)

theorem optimal_fold_score_le
    (cluster : ℕ → List (List ℚ) → Except String (List ℤ))
    (score : List (List ℚ) → List ℤ → Except String ℚ)
    (embeddings : List (List ℚ)) :
    ∀ (l : List ℕ) (acc : ℚ × Option (List ℤ) × ℕ) (k : ℕ)
      (labels : List ℤ) (s : ℚ), k ∈ l →
      cluster k embeddings = Except.ok labels →
      score embeddings labels = Except.ok s →
      s ≤ (l.foldl (optimal_clusters_step cluster score embeddings) acc).1 := by
  intro l
  induction l with
  | nil => intro acc k labels s hk _ _; simp at hk
  | cons x xs ih =>
    intro acc k labels s hk hcl hsc
    rw [List.foldl_cons]
    rcases List.mem_cons.1 hk with rfl | hk'
    · have hstep : s ≤ (optimal_clusters_step cluster score embeddings acc k).1 := by
        unfold optimal_clusters_step
        simp only [hcl, hsc]
        by_cases hgt : s > acc.1
        · rw [if_pos hgt]
        · rw [if_neg hgt]; exact not_lt.1 hgt
      exact le_trans hstep (optimal_fold_fst_mono cluster score embeddings xs _)
    · exact ih _ k labels s hk' hcl hsc

theorem optimal_step_provenance
    (cluster : ℕ → List (List ℚ) → Except String (List ℤ))
    (score : List (List ℚ) → List ℤ → Except String ℚ)
    (embeddings : List (List ℚ)) (ks : List ℕ)
    (acc : ℚ × Option (List ℤ) × ℕ) (x : ℕ) (hx : x ∈ ks)
    (hacc : ∀ bl, acc.2.1 = some bl → ∃ k ∈ ks,
      cluster k embeddings = Except.ok bl ∧
      score embeddings bl = Except.ok acc.1) :
    ∀ bl, (optimal_clusters_step cluster score embeddings acc x).2.1 = some bl →
      ∃ k ∈ ks, cluster k embeddings = Except.ok bl ∧
        score embeddings bl = Except.ok
          (optimal_clusters_step cluster score embeddings acc x).1 := by
  intro bl hbl
  cases hcl : cluster x embeddings with
  | error e =>
    have hstep : optimal_clusters_step cluster score embeddings acc x = acc := by
      unfold optimal_clusters_step; simp only [hcl]
    rw [hstep] at hbl ⊢
    exact hacc bl hbl
  | ok labels =>
    cases hsc : score embeddings labels with
    | error e =>
      have hstep : optimal_clusters_step cluster score embeddings acc x = acc := by
        unfold optimal_clusters_step; simp only [hcl, hsc]
      rw [hstep] at hbl ⊢
      exact hacc bl hbl
    | ok s =>
      by_cases hgt : s > acc.1
      · have hstep : optimal_clusters_step cluster score embeddings acc x =
            (s, some labels, x) := by
          unfold optimal_clusters_step; simp only [hcl, hsc]; rw [if_pos hgt]
        rw [hstep] at hbl ⊢
        have hlb : labels = bl := by simpa using hbl
        exact ⟨x, hx, hlb ▸ hcl, hlb ▸ hsc⟩
      · have hstep : optimal_clusters_step cluster score embeddings acc x = acc := by
          unfold optimal_clusters_step; simp only [hcl, hsc]; rw [if_neg hgt]
        rw [hstep] at hbl ⊢
        exact hacc bl hbl

theorem optimal_fold_provenance
    (cluster : ℕ → List (List ℚ) → Except String (List ℤ))
    (score : List (List ℚ) → List ℤ → Except String ℚ)
    (embeddings : List (List ℚ)) (ks : List ℕ) :
    ∀ (l : List ℕ) (acc : ℚ × Option (List ℤ) × ℕ),
      (∀ k ∈ l, k ∈ ks) →
      (∀ bl, acc.2.1 = some bl → ∃ k ∈ ks,
        cluster k embeddings = Except.ok bl ∧
        score embeddings bl = Except.ok acc.1) →
      ∀ bl, (l.foldl (optimal_clusters_step cluster score embeddings) acc).2.1 =
          some bl →
        ∃ k ∈ ks, cluster k embeddings = Except.ok bl ∧
          score embeddings bl = Except.ok
            ((l.foldl (optimal_clusters_step cluster score embeddings) acc).1) := by
  intro l
  induction l with
  | nil => intro acc _ hacc bl h; exact hacc bl h
  | cons x xs ih =>
    intro acc hsub hacc bl h
    rw [List.foldl_cons] at h ⊢
    exact ih _ (fun k hk => hsub k (List.mem_cons_of_mem x hk))
      (optimal_step_provenance cluster score embeddings ks acc x
        (hsub x (List.mem_cons_self x xs)) hacc) bl h

/-- Claim C8: the cluster-count search tries exactly the candidates `K` from
`2` to `min(MAX_SPEAKERS, n − 1)` inclusive; a clustering or scoring failure
at a given `K` leaves the search state untouched; every successfully scored
candidate scores at most the final best score, and the retained labeling is
one that achieved that final best score; when no candidate was retained the
function returns exactly the result of the unconditional `K = 2` fallback
clustering; and whenever that fallback clustering succeeds the function
returns a value, so no failure escapes. -/
theorem cluster_search_policy
    (cluster : ℕ → List (List ℚ) → Except String (List ℤ))
    (score : List (List ℚ) → List ℤ → Except String ℚ)
    (embeddings : List (List ℚ)) :
    (∀ k, k ∈ candidate_ks embeddings.length ↔
      2 ≤ k ∧ k ≤ min (embeddings.length - 1) MAX_SPEAKERS) ∧
    (∀ (acc : ℚ × Option (List ℤ) × ℕ) (k : ℕ) (e : String),
      cluster k embeddings = Except.error e →
        optimal_clusters_step cluster score embeddings acc k = acc) ∧
    (∀ (acc : ℚ × Option (List ℤ) × ℕ) (k : ℕ) (labels : List ℤ) (e : String),
      cluster k embeddings = Except.ok labels →
      score embeddings labels = Except.error e →
        optimal_clusters_step cluster score embeddings acc k = acc) ∧
    (∀ k ∈ candidate_ks embeddings.length, ∀ (labels : List ℤ) (s : ℚ),
      cluster k embeddings = Except.ok labels →
      score embeddings labels = Except.ok s →
      s ≤ ((candidate_ks embeddings.length).foldl
        (optimal_clusters_step cluster score embeddings) (-1, none, 2)).1) ∧
    (∀ best_labels, ((candidate_ks embeddings.length).foldl
        (optimal_clusters_step cluster score embeddings) (-1, none, 2)).2.1 =
          some best_labels →
      ∃ k ∈ candidate_ks embeddings.length,
        cluster k embeddings = Except.ok best_labels ∧
          score embeddings best_labels = Except.ok
            (((candidate_ks embeddings.length).foldl
              (optimal_clusters_step cluster score embeddings) (-1, none, 2)).1)) ∧
    (2 ≤ embeddings.length →
      ((candidate_ks embeddings.length).foldl
        (optimal_clusters_step cluster score embeddings) (-1, none, 2)).2.1 = none →
      find_optimal_clusters cluster score embeddings =
        (cluster 2 embeddings).map fun labels => (labels, 2)) ∧
    ((∃ l, cluster 2 embeddings = Except.ok l) →
      ∃ r, find_optimal_clusters cluster score embeddings = Except.ok r) := by
  refine ⟨?_, ?_, ?_, ?_, ?_, ?_, ?_⟩
  · intro k
    simp only [candidate_ks, MAX_SPEAKERS, List.mem_range'_1]
    omega
  · intro acc k e he
    unfold optimal_clusters_step
    rw [he]
  · intro acc k labels e hcl hsc
    unfold optimal_clusters_step
    simp only [hcl, hsc]
  · intro k hk labels s hcl hsc
    exact optimal_fold_score_le cluster score embeddings _ _ k labels s hk hcl hsc
  · intro best_labels h
    exact optimal_fold_provenance cluster score embeddings
      (candidate_ks embeddings.length) (candidate_ks embeddings.length)
      (-1, none, 2) (fun k hk => hk) (fun bl hbl => by simp at hbl)
      best_labels h
  · intro h2 hnone
    unfold find_optimal_clusters
    rw [if_neg (by omega)]
    simp only [hnone]
    cases hcl : cluster 2 embeddings <;> simp [hcl, Except.map]
  · intro hok
    by_cases hn : embeddings.length < 2
    · exact ⟨(List.replicate embeddings.length 0, 1), by
        unfold find_optimal_clusters; rw [if_pos hn]⟩
    · cases hfold : ((candidate_ks embeddings.length).foldl
          (optimal_clusters_step cluster score embeddings) (-1, none, 2)).2.1 with
      | some bl =>
        refine ⟨(bl, ((candidate_ks embeddings.length).foldl
          (optimal_clusters_step cluster score embeddings) (-1, none, 2)).2.2), ?_⟩
        unfold find_optimal_clusters
        rw [if_neg hn]
        simp only [hfold]
      | none =>
        obtain ⟨l, hl⟩ := hok
        refine ⟨(l, 2), ?_⟩
        unfold find_optimal_clusters
        rw [if_neg hn]
        simp only [hfold, hl]

/-- Witness for C8: a clustering oracle that always answers `[0, 1]` and a
scorer that always answers `1/2`; the fallback clustering succeeds, so the
search returns a value on three embeddings. -/
theorem cluster_search_policy_witness :
    (∃ l, (fun (_ : ℕ) (_ : List (List ℚ)) =>
        (Except.ok [(0:ℤ), 1] : Except String (List ℤ))) 2
          ([[1], [2], [3]] : List (List ℚ)) = Except.ok l) ∧
      ∃ r, find_optimal_clusters
        (fun _ _ => (Except.ok [(0:ℤ), 1] : Except String (List ℤ)))
        (fun _ _ => (Except.ok (1/2) : Except String ℚ))
        [[1], [2], [3]] = Except.ok r :=
  ⟨⟨[0, 1], rfl⟩,
    (cluster_search_policy
        (fun _ _ => (Except.ok [(0:ℤ), 1] : Except String (List ℤ)))
        (fun _ _ => (Except.ok (1/2) : Except String ℚ))
        [[1], [2], [3]]).2.2.2.2.2.2 ⟨[0, 1], rfl⟩⟩
